import Mathlib

/-!
Verification of the stperf measurement-tree engine and tree renderer.

The development shallowly embeds the Rust sources:
  * `src/measurement.rs` — the measurement tree, the scope stack, overhead
    accounting and `reset`;
  * `src/formatter.rs` — `get_formatted_string` and `construct_tree_branch`.

`std::time::Duration` is embedded as a pair of seconds and sub-second
nanoseconds; `u64`/`u32`/`usize` arithmetic is embedded over `Nat` (the modelled
quantities — nanosecond totals, list lengths — stay far below `2^64`/`2^32` in
every statement below, so wrap-around is immaterial and is noted where a sum
could in principle grow).  `Arc<Mutex<_>>` sharing is embedded by value: the
tree is an inductive value, the scope stack holds paths (child-index lists)
into it, which models the `Arc` identities of stack entries for the
reset-free operation sequences studied here.  Rust panics (`unwrap` on `None`,
`try_lock` failure, index out of bounds) are modelled as `Option.none` results.
-/

namespace Stperf

/-- `std::time::Duration`: whole seconds plus sub-second nanoseconds.
A normalised Rust `Duration` keeps `nanos < 10^9`; all concrete inputs below
respect that bound. -/
structure Dur where
  secs : Nat
  nanos : Nat
deriving Repr, DecidableEq

/-- `Duration::subsec_nanos`. -/
def Dur.subsecNanos (d : Dur) : Nat := d.nanos

/-- The full nanosecond value `as_secs() * 1_000_000_000 + subsec_nanos()`,
the conversion `Measurement::get_overhead_ns` applies to `self.overhead`. -/
def Dur.toNs (d : Dur) : Nat := d.secs * 1000000000 + d.nanos

/-- `Duration` addition (used by `measurement.overhead += ...` in
`Drop for MeasurementTracker`), normalising the nanosecond carry. -/
def Dur.add (a b : Dur) : Dur :=
  ⟨a.secs + b.secs + (a.nanos + b.nanos) / 1000000000, (a.nanos + b.nanos) % 1000000000⟩

/-- `Duration::new(0, 0)`. -/
def Dur.zero : Dur := ⟨0, 0⟩

/-- The `Measurement` struct of `src/measurement.rs`:
`name`, `depth`, `overhead`, `durations`, `children`, `children_names`,
`measuring_currently`.  The `parent` back-reference is not stored: parents are
recovered positionally (a node's parent is the node holding it in `children`),
which is how the embedding renders the `Option<MeasurementRef>` weak link. -/
inductive Measurement where
  | mk (name : String) (depth : Nat) (overhead : Dur) (durations : List Dur)
       (children : List Measurement) (childrenNames : List String)
       (measuringCurrently : Bool)
deriving Repr

namespace Measurement

def name : Measurement → String
  | .mk n _ _ _ _ _ _ => n

def depth : Measurement → Nat
  | .mk _ d _ _ _ _ _ => d

def overhead : Measurement → Dur
  | .mk _ _ o _ _ _ _ => o

def durations : Measurement → List Dur
  | .mk _ _ _ ds _ _ _ => ds

def children : Measurement → List Measurement
  | .mk _ _ _ _ cs _ _ => cs

def childrenNames : Measurement → List String
  | .mk _ _ _ _ _ ns _ => ns

def measuringCurrently : Measurement → Bool
  | .mk _ _ _ _ _ _ a => a

/-- Rebuild a node with a new `children` list (all other fields kept). -/
def withChildren (m : Measurement) (cs : List Measurement) : Measurement :=
  .mk m.name m.depth m.overhead m.durations cs m.childrenNames m.measuringCurrently

/-- `measurement.measuring_currently = b` (the field update performed by
`measure` on an existing child and by `Drop for MeasurementTracker`). -/
def setMeasuring (m : Measurement) (b : Bool) : Measurement :=
  .mk m.name m.depth m.overhead m.durations m.children m.childrenNames b

/-- The mutations of `Drop for MeasurementTracker` on the popped node:
`measuring_currently = false; overhead += self.overhead;
durations.push(now - start_time); overhead += now - latter_overhead_start`.
The three measured time spans are parameters (time is an external oracle). -/
def recordExit (m : Measurement) (dur oh1 oh2 : Dur) : Measurement :=
  .mk m.name m.depth ((m.overhead.add oh1).add oh2) (m.durations ++ [dur])
    m.children m.childrenNames false

/-- `parent.children.push(measurement); parent.children_names.push(name)`
(the not-yet-present branch of `measure`). -/
def appendChild (m : Measurement) (c : Measurement) (nm : String) : Measurement :=
  .mk m.name m.depth m.overhead m.durations (m.children ++ [c])
    (m.childrenNames ++ [nm]) m.measuringCurrently

/-- `Measurement::clear_durations`. -/
def clearDurations (m : Measurement) : Measurement :=
  .mk m.name m.depth m.overhead [] m.children m.childrenNames m.measuringCurrently

/-- `Measurement::has_children`: `self.children.len() > 0`. -/
def hasChildren (m : Measurement) : Bool := m.children.length > 0

/-- The index found by `Measurement::get_child`: the first child (in order)
whose `name` equals the argument, `None` when no child matches. -/
def findChildIdx (nm : String) : List Measurement → Option Nat
  | [] => none
  | c :: cs => if c.name = nm then some 0 else (findChildIdx nm cs).map (· + 1)

/-- `Measurement::last_child_name`: `None` when `leaf` is set and there are no
children, otherwise `children_names[children.len() - 1]`.  With `leaf == false`
and no children the source panics on the underflowing index; that case is
unreachable from the renderer (the queried ancestor always has a child on the
rendered node's path), and the embedding's total `get?` reads entry `0` there
instead.  Note the index: the *name* list is indexed by the *children* count —
the two lists agree only while they stay parallel. -/
def lastChildName (m : Measurement) (leaf : Bool) : Option String :=
  if leaf && m.children.length == 0 then none
  else m.childrenNames.get? (m.children.length - 1)

/-- `Measurement::is_last_child_name`. -/
def isLastChildName (m : Measurement) (nm : String) (leaf : Bool) : Bool :=
  match m.lastChildName leaf with
  | some last => last = nm
  | none => false

end Measurement

mutual
/-- `Measurement::get_overhead_ns`: the node's own overhead in full
nanoseconds plus, recursively, every child's.  The source skips a child whose
`try_lock` fails; the renderer and report paths run with no other lock held,
so every child locks and none is skipped. -/
def getOverheadNs : Measurement → Nat
  | .mk _ _ oh _ cs _ _ => oh.toNs + getOverheadNsList cs

def getOverheadNsList : List Measurement → Nat
  | [] => 0
  | c :: cs => getOverheadNs c + getOverheadNsList cs
end

/-- `Measurement::get_duration_ns`: `None` without samples, otherwise the sum
of `duration.subsec_nanos() as u64` over the samples (note: only the
sub-second part of each sample), minus `get_overhead_ns()`, clamped at `0`.
The `u64` total cannot wrap for any remotely realistic sample count
(each summand is below `10^9`). -/
def getDurationNs (m : Measurement) : Option Nat :=
  if m.durations.length = 0 then none
  else
    let total := (m.durations.map Dur.subsecNanos).sum
    if total < getOverheadNs m then some 0
    else some (total - getOverheadNs m)

/-- The corrected duration the spec describes:
`true_duration_ns = sum(durations in ns) - overhead_ns`, clamped at `0`,
with each sample converted in full (`as_secs * 10^9 + subsec_nanos`).
This is the spec-side formula that claim C1 compares against the source's
`get_duration_ns`. -/
def specTrueDurationNs (m : Measurement) : Nat :=
  let total := (m.durations.map Dur.toNs).sum
  if total < getOverheadNs m then 0 else total - getOverheadNs m

/-- Modelled from the spec: `Measurement::get_avg_duration_ns`, which
`src/formatter.rs` calls on every node, is absent from `src/measurement.rs`
(the repository superimposes several historical variants and this file ships a
variant with `get_duration_ns` only).  Per the spec, the renderer's metrics
are built from `true_duration_ns = sum(durations in ns) - overhead_ns`
(clamped at 0) and `count = len(durations)`; the function's name and its use
site (`duration * count / main_count`, recovering a total before the
loop-normalising division) determine it as the per-sample average of the
corrected duration in whole nanoseconds: `true_duration_ns / count`
(integer division, `None` without samples). -/
def getAvgDurationNs (m : Measurement) : Option Nat :=
  if m.durations.length = 0 then none
  else some (specTrueDurationNs m / m.durations.length)

/-! ## `reset` (src/measurement.rs lines 62–75)

`reset` locks the stack, then takes the root's mutex guard for the whole call
(`let root = stack.get(0).unwrap().get_mut();`), collects every strict
descendant (`collect_all_children_arc`), and walks them: an inactive node is
detached from its parent (`remove_while_locked`, which locks the parent and
removes the currently-locked child), an active node has its durations cleared.

Locking consequence: detaching an *inactive depth-1 node* calls
`parent.get_mut()` on the root mutex, which `reset` itself already holds;
`std::sync::Mutex::try_lock` then returns `Err` and `MeasurementRef::get_mut`
panics.  So `reset` panics exactly when the root has an inactive child, and
that is modelled as `none`.  Otherwise no re-entrant lock occurs (the only
guards held are the root's and the currently processed child's, and a deeper
child's parent is neither), every inactive descendant is removed from its
parent's `children` list and every active one is cleared; the processing order
does not affect the tree reachable from the root, which the functional model
below computes.  `remove_locked_child` edits only `children`, never
`children_names`, and the model preserves that. -/

mutual
/-- The subtree reachable from a *kept* (active) node after `reset`: its
durations are cleared (`clear_durations`), its inactive children are detached
(with their whole subtrees becoming unreachable), its active children are
kept recursively, and its `children_names` list is left untouched. -/
def resetKept : Measurement → Measurement
  | .mk n d oh _ cs cns mc => .mk n d oh [] (resetKeptChildren cs) cns mc

def resetKeptChildren : List Measurement → List Measurement
  | [] => []
  | c :: cs =>
    (if c.measuringCurrently then [resetKept c] else []) ++ resetKeptChildren cs
end

/-- `reset()`: panics (`none`) when the root has an inactive child (the
re-entrant `try_lock` on the root mutex described above), otherwise returns
the reachable tree after pruning and clearing.  The root node itself is never
in the collected list: its durations are not cleared and it is never
removed. -/
def resetMeasurement (root : Measurement) : Option Measurement :=
  if root.children.any (fun c => !c.measuringCurrently) then none
  else some (root.withChildren (resetKeptChildren root.children))

/-- C2's failing input: the tree after `enter "a"; exit` — one inactive
depth-1 node under the root. -/
def exC2Child : Measurement := .mk "a" 1 Dur.zero [⟨0, 5⟩] [] [] false

/-- The root holding `exC2Child`, with the stack back at `[root]`. -/
def exC2 : Measurement := .mk "root" 0 Dur.zero [] [exC2Child] ["a"] true

/-- **C2.** The claim says `reset()` detaches every inactive node, keeps (and
clears) every active one, and never removes the root.  On the tree produced by
a single completed top-level measurement — an inactive depth-1 child `"a"` —
the code instead panics: `reset` still holds the root's mutex guard when
`remove_while_locked` calls `parent.get_mut()` on that same mutex, so
`try_lock` fails and `MeasurementRef::get_mut` panics
(`"Failed to lock measurement!"`).  Nothing is detached. -/
theorem c2_reset_panics_on_inactive_depth1_child :
    exC2Child.measuringCurrently = false ∧
      exC2Child.depth = 1 ∧
      resetMeasurement exC2 = none := by
  refine ⟨rfl, rfl, rfl⟩

/-- C10's counterexample input, innermost node: an inactive completed child
`"B"` of an active node. -/
def exC10B : Measurement := .mk "B" 2 Dur.zero [⟨0, 7⟩] [] [] false

/-- C10's counterexample input: an *active* depth-1 node `"A"` (its tracker
still open) holding the inactive `"B"`. -/
def exC10A : Measurement := .mk "A" 1 Dur.zero [] [exC10B] ["B"] true

/-- C10's counterexample input: the root. -/
def exC10 : Measurement := .mk "root" 0 Dur.zero [] [exC10A] ["A"] true

/-- The tree `reset` produces from `exC10`: `"A"` is kept (active) but `"B"`
has been detached from it. -/
def exC10Reset : Measurement :=
  .mk "root" 0 Dur.zero [] [.mk "A" 1 Dur.zero [] [] ["B"] true] ["A"] true

/-- **C10 counterexample.** The claim says that for an active node `reset`
changes only the `durations` sequence and leaves the children untouched.  On
`exC10`, node `"A"` is active and has one child before the call, and `reset`
succeeds — but `"A"` comes out with *zero* children: its inactive child `"B"`
was detached.  So `reset` also mutates an active node's `children` list. -/
theorem c10_cex_reset_changes_children_of_active_node :
    exC10A.measuringCurrently = true ∧
      exC10A.children.length = 1 ∧
      resetMeasurement exC10 = some exC10Reset ∧
      exC10Reset.children.map Measurement.name = ["A"] ∧
      (exC10Reset.children.map fun c => c.children.length) = [0] := by
  refine ⟨rfl, rfl, rfl, rfl, rfl⟩

/-- C1's failing input: a node holding a single 1.5-second sample
(`1_500_000_000` ns) and zero overhead. -/
def exC1 : Measurement := .mk "slow" 1 Dur.zero [⟨1, 500000000⟩] [] [] false

/-- **C1.** The claim says the reported corrected duration equals the sum of
the samples *expressed in nanoseconds* minus the accumulated overhead
(clamped at 0).  The code disagrees: `get_duration_ns` sums only
`duration.subsec_nanos()`, dropping the whole-second part of every sample,
while `get_overhead_ns` right next to it converts the overhead in full
(`as_secs * 10^9 + subsec_nanos`).  On a node with one 1.5 s sample and zero
overhead the code reports `500_000_000` ns where the claimed formula (and the
function's evident intent) gives `1_500_000_000` ns. -/
theorem c1_durationNs_drops_whole_seconds :
    getDurationNs exC1 = some 500000000 ∧
      specTrueDurationNs exC1 = 1500000000 ∧
      (500000000 : Nat) ≠ 1500000000 := by
  refine ⟨rfl, rfl, by decide⟩

/-! ## Paths and the scope stack (src/measurement.rs lines 8–57)

The Rust stack holds `Arc` references into the tree; the embedding holds
*paths* (child-index lists) from the root, which name the same nodes for the
reset-free operation sequences considered here.  The top of the Rust `Vec`
(`stack.get(depth - 1)`) is the head of the embedded list. -/

/-- In-place update of one `Vec` slot (`children[i] = ...` style mutation);
out-of-range indices leave the list unchanged (unreachable from valid paths). -/
def listModify (f : α → α) : Nat → List α → List α
  | _, [] => []
  | 0, x :: xs => f x :: xs
  | n + 1, x :: xs => x :: listModify f n xs

/-- Dereference a path: follow child indices from the node. -/
def getNode : Measurement → List Nat → Option Measurement
  | m, [] => some m
  | m, i :: p =>
    match m.children.get? i with
    | some c => getNode c p
    | none => none

/-- Mutate the node a path points at (the embedding of writing through a
locked `MeasurementRef`). -/
def modifyNode : Measurement → List Nat → (Measurement → Measurement) → Measurement
  | m, [], f => f m
  | m, i :: p, f => m.withChildren (listModify (fun c => modifyNode c p f) i m.children)

/-- The global state behind `MEASUREMENT_STACK`: the root tree plus the stack
of paths of currently open nodes (head = top). -/
structure PState where
  root : Measurement
  stack : List (List Nat)
deriving Repr

/-- `lazy_static`'s initial state: a fresh root node (depth 0, no parent,
`measuring_currently = true`) and the stack holding just the root. -/
def initPState : PState :=
  ⟨.mk "root" 0 Dur.zero [] [] [] true, [[]]⟩

/-- `measure` (src/measurement.rs lines 15–44): read the stack top as parent
(`stack.get(depth - 1)`, a panic — `none` — on an empty stack), look the name
up among the parent's children (`get_child`); push the existing child after
setting `measuring_currently = true`, or else append a fresh node (depth =
stack length before the push, empty durations, active) to `children` and
`children_names` and push it. -/
def measureOp (nm : String) (σ : PState) : Option PState :=
  match σ.stack with
  | [] => none
  | parentPath :: _ =>
    match getNode σ.root parentPath with
    | none => none
    | some parent =>
      match Measurement.findChildIdx nm parent.children with
      | some i =>
        some ⟨modifyNode σ.root (parentPath ++ [i]) (fun m => m.setMeasuring true),
              (parentPath ++ [i]) :: σ.stack⟩
      | none =>
        some ⟨modifyNode σ.root parentPath
                (fun p => p.appendChild (.mk nm σ.stack.length Dur.zero [] [] [] true) nm),
              (parentPath ++ [parent.children.length]) :: σ.stack⟩

/-- `Drop for MeasurementTracker` (lines 46–57): pop the stack (`none` on an
empty stack, where the source's `unwrap` panics) and record into the popped
node: clear the active flag, add the entry overhead and the exit-side
bookkeeping span, append the elapsed sample.  The three spans are
parameters. -/
def scopeExit (dur oh1 oh2 : Dur) (σ : PState) : Option PState :=
  match σ.stack with
  | [] => none
  | p :: rest => some ⟨modifyNode σ.root p (fun m => m.recordExit dur oh1 oh2), rest⟩

/-- One external call on the engine: scope entry or scope exit (the exit
carries the measured spans of that exit). -/
inductive Op where
  | enter (nm : String)
  | leave (dur oh1 oh2 : Dur)

def stepOp : Op → PState → Option PState
  | .enter nm, σ => measureOp nm σ
  | .leave d o1 o2, σ => scopeExit d o1 o2 σ

def runOps : List Op → PState → Option PState
  | [], σ => some σ
  | op :: ops, σ => (stepOp op σ).bind (runOps ops)

/-- Balanced call sequences: each entry's tracker is released within its
enclosing scope. -/
inductive Balanced : List Op → Prop where
  | nil : Balanced []
  | wrap (nm : String) (d o1 o2 : Dur) {s : List Op} :
      Balanced s → Balanced (Op.enter nm :: s ++ [Op.leave d o1 o2])
  | append {s t : List Op} : Balanced s → Balanced t → Balanced (s ++ t)

/-- The stack invariant the Rust `Arc`s give for free: the stack is never
empty (root sentinel) and every stack entry dereferences. -/
def ValidState (σ : PState) : Prop :=
  σ.stack ≠ [] ∧ ∀ p ∈ σ.stack, (getNode σ.root p).isSome

/-! ### Path lemmas -/

theorem listModify_get?_self (f : α → α) :
    ∀ (l : List α) (i : Nat), (listModify f i l).get? i = (l.get? i).map f := by
  intro l
  induction l with
  | nil => intro i; cases i <;> rfl
  | cons x xs ih =>
    intro i
    cases i with
    | zero => rfl
    | succ n => simpa [listModify] using ih n

theorem listModify_get?_ne (f : α → α) :
    ∀ (l : List α) (i j : Nat), j ≠ i → (listModify f i l).get? j = l.get? j := by
  intro l
  induction l with
  | nil => intro i j _; cases i <;> rfl
  | cons x xs ih =>
    intro i j hne
    cases i with
    | zero =>
      cases j with
      | zero => exact absurd rfl hne
      | succ k => rfl
    | succ n =>
      cases j with
      | zero => rfl
      | succ k => simpa [listModify] using ih n k (fun h => hne (by omega))

theorem listModify_comp (f g : α → α) :
    ∀ (l : List α) (i : Nat),
      listModify g i (listModify f i l) = listModify (fun x => g (f x)) i l := by
  intro l
  induction l with
  | nil => intro i; cases i <;> rfl
  | cons x xs ih =>
    intro i
    cases i with
    | zero => rfl
    | succ n => simp [listModify, ih n]

theorem listModify_congr {f g : α → α} (h : ∀ x, f x = g x) :
    ∀ (l : List α) (i : Nat), listModify f i l = listModify g i l := by
  intro l
  induction l with
  | nil => intro i; cases i <;> rfl
  | cons x xs ih =>
    intro i
    cases i with
    | zero => simp [listModify, h x]
    | succ n => simp [listModify, ih n]

theorem children_withChildren (m : Measurement) (cs : List Measurement) :
    (m.withChildren cs).children = cs := by
  cases m <;> rfl

theorem withChildren_withChildren (m : Measurement) (a b : List Measurement) :
    (m.withChildren a).withChildren b = m.withChildren b := by
  cases m <;> rfl

theorem getNode_cons (m : Measurement) (j : Nat) (q : List Nat) :
    getNode m (j :: q) = (m.children.get? j).bind (fun c => getNode c q) := by
  cases m with
  | mk n d oh ds cs cns mc =>
    simp only [getNode, Measurement.children]
    cases hget : cs.get? j <;> simp [hget]

theorem modifyNode_cons (m : Measurement) (i : Nat) (p : List Nat)
    (f : Measurement → Measurement) :
    modifyNode m (i :: p) f
      = m.withChildren (listModify (fun c => modifyNode c p f) i m.children) := rfl

theorem getNode_append_singleton :
    ∀ (p : List Nat) (m : Measurement) (i : Nat),
      getNode m (p ++ [i]) = (getNode m p).bind (fun n => n.children.get? i) := by
  intro p
  induction p with
  | nil =>
    intro m i
    rw [List.nil_append, getNode_cons]
    simp only [getNode, Option.some_bind]
    cases hget : m.children.get? i <;> simp [hget]
  | cons j p ih =>
    intro m i
    rw [List.cons_append, getNode_cons, getNode_cons]
    cases hget : m.children.get? j <;> simp [hget, ih]

theorem getNode_modifyNode_self :
    ∀ (p : List Nat) (m : Measurement) (f : Measurement → Measurement),
      getNode (modifyNode m p f) p = (getNode m p).map f := by
  intro p
  induction p with
  | nil => intro m f; rfl
  | cons i p ih =>
    intro m f
    rw [modifyNode_cons, getNode_cons, getNode_cons, children_withChildren,
      listModify_get?_self]
    cases hget : m.children.get? i <;> simp [hget, ih]

theorem modifyNode_append_singleton :
    ∀ (p : List Nat) (m : Measurement) (i : Nat) (f : Measurement → Measurement),
      modifyNode m (p ++ [i]) f
        = modifyNode m p (fun n => n.withChildren (listModify f i n.children)) := by
  intro p
  induction p with
  | nil => intro m i f; rfl
  | cons j p ih =>
    intro m i f
    rw [List.cons_append, modifyNode_cons, modifyNode_cons]
    rw [listModify_congr (fun c => ih c i f)]

theorem modifyNode_comp :
    ∀ (p : List Nat) (m : Measurement) (f g : Measurement → Measurement),
      modifyNode (modifyNode m p f) p g = modifyNode m p (fun n => g (f n)) := by
  intro p
  induction p with
  | nil => intro m f g; rfl
  | cons i p ih =>
    intro m f g
    have h1 : modifyNode m (i :: p) f
        = m.withChildren (listModify (fun c => modifyNode c p f) i m.children) := rfl
    rw [h1, modifyNode_cons, children_withChildren, withChildren_withChildren,
      listModify_comp, modifyNode_cons,
      listModify_congr (fun c => ih c f g)]

/-- Node edits that at most append to the `children` list (all edits the
engine performs) preserve dereferenceability of every path. -/
def ChildExtending (f : Measurement → Measurement) : Prop :=
  ∀ m, ∃ ext, (f m).children = m.children ++ ext

theorem getNode_isSome_modifyNode {f : Measurement → Measurement}
    (hf : ChildExtending f) :
    ∀ (p q : List Nat) (m : Measurement),
      (getNode m q).isSome → (getNode (modifyNode m p f) q).isSome := by
  intro p
  induction p with
  | nil =>
    intro q m hq
    cases q with
    | nil => simp [getNode]
    | cons j q' =>
      obtain ⟨ext, hext⟩ := hf m
      rw [getNode_cons] at hq
      show (getNode (f m) (j :: q')).isSome
      rw [getNode_cons, hext]
      cases hget : m.children.get? j with
      | none => rw [hget] at hq; simp at hq
      | some c =>
        rw [hget] at hq
        have hj : j < m.children.length := by
          obtain ⟨hj, -⟩ := List.get?_eq_some.mp hget
          exact hj
        rw [List.get?_append hj, hget]
        exact hq
  | cons i p ih =>
    intro q m hq
    cases q with
    | nil => simp [getNode]
    | cons j q' =>
      rw [getNode_cons] at hq
      rw [modifyNode_cons, getNode_cons, children_withChildren]
      by_cases hji : j = i
      · subst hji
        rw [listModify_get?_self]
        cases hget : m.children.get? j with
        | none => rw [hget] at hq; simp at hq
        | some c =>
          rw [hget] at hq
          simp only [Option.map_some', Option.some_bind]
          exact ih q' c (by simpa using hq)
      · rw [listModify_get?_ne _ _ _ _ hji]
        exact hq

theorem childExtending_setMeasuring (b : Bool) :
    ChildExtending (fun m => m.setMeasuring b) := by
  intro m; exact ⟨[], by cases m <;> simp [Measurement.setMeasuring, Measurement.children]⟩

theorem childExtending_recordExit (d o1 o2 : Dur) :
    ChildExtending (fun m => m.recordExit d o1 o2) := by
  intro m; exact ⟨[], by cases m <;> simp [Measurement.recordExit, Measurement.children]⟩

theorem childExtending_appendChild (c : Measurement) (nm : String) :
    ChildExtending (fun m => m.appendChild c nm) := by
  intro m; exact ⟨[c], by cases m <;> simp [Measurement.appendChild, Measurement.children]⟩

theorem findChildIdx_some {nm : String} :
    ∀ {cs : List Measurement} {i : Nat}, Measurement.findChildIdx nm cs = some i →
      ∃ c, cs.get? i = some c ∧ c.name = nm := by
  intro cs
  induction cs with
  | nil => intro i h; simp [Measurement.findChildIdx] at h
  | cons c cs ih =>
    intro i h
    simp only [Measurement.findChildIdx] at h
    by_cases hc : c.name = nm
    · rw [if_pos hc] at h
      cases h
      exact ⟨c, rfl, hc⟩
    · rw [if_neg hc] at h
      cases hidx : Measurement.findChildIdx nm cs with
      | none => rw [hidx] at h; simp at h
      | some k =>
        rw [hidx] at h
        simp only [Option.map_some'] at h
        obtain ⟨x, hx, hnm⟩ := ih hidx
        cases h
        exact ⟨x, by simpa using hx, hnm⟩

theorem getNode_appendChild_new {m : Measurement} {p : List Nat}
    {parent : Measurement} (h : getNode m p = some parent)
    (c : Measurement) (nm : String) :
    getNode (modifyNode m p (fun n => n.appendChild c nm))
        (p ++ [parent.children.length]) = some c := by
  rw [getNode_append_singleton, getNode_modifyNode_self, h]
  simp only [Option.map_some', Option.bind]
  cases parent with
  | mk n d oh ds cs cns mc =>
    simp [Measurement.appendChild, Measurement.children, List.get?_concat_length]

/-! ### C3: balanced sequences preserve stack depth -/

theorem measureOp_valid (nm : String) (σ : PState) (h : ValidState σ) :
    ∃ σ', measureOp nm σ = some σ' ∧
      σ'.stack.length = σ.stack.length + 1 ∧ ValidState σ' := by
  obtain ⟨hne, hall⟩ := h
  cases hstk : σ.stack with
  | nil => exact absurd hstk hne
  | cons p rest =>
    have hp : (getNode σ.root p).isSome := hall p (by rw [hstk]; exact List.mem_cons_self p rest)
    cases hget : getNode σ.root p with
    | none => rw [hget] at hp; simp at hp
    | some parent =>
      cases hidx : Measurement.findChildIdx nm parent.children with
      | some i =>
        refine ⟨⟨modifyNode σ.root (p ++ [i]) (fun m => m.setMeasuring true),
                 (p ++ [i]) :: p :: rest⟩, ?_, ?_, ?_, ?_⟩
        · simp [measureOp, hstk, hget, hidx]
        · simp [hstk]
        · simp
        · intro q hq
          simp only [List.mem_cons] at hq
          obtain ⟨c, hc, -⟩ := findChildIdx_some hidx
          rcases hq with rfl | hq
          · show (getNode (modifyNode σ.root (p ++ [i]) _) (p ++ [i])).isSome
            rw [getNode_modifyNode_self]
            have hsome : (getNode σ.root (p ++ [i])).isSome := by
              rw [getNode_append_singleton, hget]
              simp only [Option.some_bind]
              rw [hc]
              rfl
            simpa using hsome
          · exact getNode_isSome_modifyNode (childExtending_setMeasuring true) _ _ _
              (hall q (by rw [hstk]; exact List.mem_cons.mpr hq))
      | none =>
        refine ⟨⟨modifyNode σ.root p
                  (fun n => n.appendChild (.mk nm σ.stack.length Dur.zero [] [] [] true) nm),
                 (p ++ [parent.children.length]) :: p :: rest⟩, ?_, ?_, ?_, ?_⟩
        · simp [measureOp, hstk, hget, hidx]
        · simp [hstk]
        · simp
        · intro q hq
          simp only [List.mem_cons] at hq
          rcases hq with rfl | hq
          · show (getNode (modifyNode σ.root p _) (p ++ [parent.children.length])).isSome
            rw [getNode_appendChild_new hget]
            rfl
          · exact getNode_isSome_modifyNode (childExtending_appendChild _ nm) _ _ _
              (hall q (by rw [hstk]; exact List.mem_cons.mpr hq))

theorem scopeExit_valid (d o1 o2 : Dur) (σ : PState) (h : ValidState σ)
    (h2 : 2 ≤ σ.stack.length) :
    ∃ σ', scopeExit d o1 o2 σ = some σ' ∧
      σ'.stack.length + 1 = σ.stack.length ∧ ValidState σ' := by
  obtain ⟨hne, hall⟩ := h
  cases hstk : σ.stack with
  | nil => exact absurd hstk hne
  | cons p rest =>
    refine ⟨⟨modifyNode σ.root p (fun m => m.recordExit d o1 o2), rest⟩, ?_, ?_, ?_, ?_⟩
    · simp [scopeExit, hstk]
    · simp [hstk]
    · show rest ≠ []
      intro hr
      rw [hstk, hr] at h2
      simp at h2
    · intro q hq
      exact getNode_isSome_modifyNode (childExtending_recordExit d o1 o2) _ _ _
        (hall q (by rw [hstk]; exact List.mem_cons_of_mem p hq))

theorem runOps_append (s t : List Op) :
    ∀ σ, runOps (s ++ t) σ = (runOps s σ).bind (runOps t) := by
  induction s with
  | nil => intro σ; rfl
  | cons op s ih =>
    intro σ
    simp only [List.cons_append, runOps]
    cases stepOp op σ with
    | none => rfl
    | some σ₁ => exact ih σ₁

/-- **C3.** For every balanced sequence of scope-entry/scope-exit calls, run
from any valid engine state (non-empty stack, dereferenceable stack paths —
the invariant the live system maintains), the run completes and the stack
depth afterwards equals the depth before: each entry pushes exactly one node
and each exit pops exactly one. -/
theorem c3_balanced_preserves_stack_depth {ops : List Op} (hb : Balanced ops) :
    ∀ σ : PState, ValidState σ →
      ∃ σ', runOps ops σ = some σ' ∧
        σ'.stack.length = σ.stack.length ∧ ValidState σ' := by
  induction hb with
  | nil => exact fun σ h => ⟨σ, rfl, rfl, h⟩
  | @wrap nm d o1 o2 s hs ih =>
    intro σ h
    obtain ⟨σ₁, he, hlen1, hv1⟩ := measureOp_valid nm σ h
    obtain ⟨σ₂, hrun, hlen2, hv2⟩ := ih σ₁ hv1
    have hpos : 1 ≤ σ.stack.length := by
      cases hstk : σ.stack with
      | nil => exact absurd hstk h.1
      | cons a b => simp [hstk]
    obtain ⟨σ₃, hex, hlen3, hv3⟩ := scopeExit_valid d o1 o2 σ₂ hv2 (by omega)
    refine ⟨σ₃, ?_, by omega, hv3⟩
    have hrun2 : runOps (s ++ [Op.leave d o1 o2]) σ₁ = some σ₃ := by
      rw [runOps_append, hrun]
      simp [runOps, stepOp, hex]
    show (stepOp (Op.enter nm) σ).bind (runOps (s ++ [Op.leave d o1 o2])) = some σ₃
    rw [show stepOp (Op.enter nm) σ = measureOp nm σ from rfl, he, Option.some_bind, hrun2]
  | append hs ht ihs iht =>
    intro σ h
    obtain ⟨σ₁, h1, hl1, hv1⟩ := ihs σ h
    obtain ⟨σ₂, h2, hl2, hv2⟩ := iht σ₁ hv1
    exact ⟨σ₂, by rw [runOps_append, h1]; exact h2, by omega, hv2⟩

/-- A concrete balanced sequence: one scope entered and exited once. -/
def exBalancedOps : List Op :=
  [Op.enter "work", Op.leave ⟨0, 300⟩ ⟨0, 10⟩ ⟨0, 20⟩]

/-- Witness for C3 at the engine's initial state and a concrete balanced
sequence. -/
theorem c3_balanced_preserves_stack_depth_witness :
    ValidState initPState ∧
      ∃ σ', runOps exBalancedOps initPState = some σ' ∧
        σ'.stack.length = initPState.stack.length ∧ ValidState σ' :=
  have hb : Balanced exBalancedOps :=
    Balanced.wrap "work" ⟨0, 300⟩ ⟨0, 10⟩ ⟨0, 20⟩ Balanced.nil
  ⟨⟨by decide, by decide⟩,
    c3_balanced_preserves_stack_depth hb initPState ⟨by decide, by decide⟩⟩

/-! ### C4: re-entering the same name under the same parent merges -/

/-- `N` complete enter/exit rounds of the same scope name (the embedding of a
loop running `perf_measure!(name)` `N` times), earliest round first. -/
def loopOps (nm : String) (d o1 o2 : Dur) : Nat → List Op
  | 0 => []
  | k + 1 => loopOps nm d o1 o2 k ++ [Op.enter nm, Op.leave d o1 o2]

/-- The overhead accumulated by a node over `k` completed rounds, each adding
the entry span and the exit-side span. -/
def ohAfter (o1 o2 : Dur) : Nat → Dur
  | 0 => Dur.zero
  | k + 1 => ((ohAfter o1 o2 k).add o1).add o2

/-- The merged child node after `k` completed rounds: one node, `k` samples,
no longer active. -/
def childAfter (nm : String) (dep : Nat) (d o1 o2 : Dur) (k : Nat) : Measurement :=
  .mk nm dep (ohAfter o1 o2 k) (List.replicate k d) [] [] false

theorem listModify_eq_of_get? {f g : α → α} :
    ∀ (l : List α) (i : Nat) (x : α), l.get? i = some x → f x = g x →
      listModify f i l = listModify g i l := by
  intro l
  induction l with
  | nil => intro i x h _; simp at h
  | cons y ys ih =>
    intro i x h hfg
    cases i with
    | zero =>
      simp only [List.get?] at h
      cases h
      simp [listModify, hfg]
    | succ n =>
      simp only [List.get?] at h
      simp [listModify, ih n x h hfg]

theorem modifyNode_congr_at :
    ∀ (p : List Nat) (root x : Measurement) (F G : Measurement → Measurement),
      getNode root p = some x → F x = G x →
        modifyNode root p F = modifyNode root p G := by
  intro p
  induction p with
  | nil =>
    intro root x F G hget hFG
    simp only [getNode] at hget
    cases hget
    exact hFG
  | cons i p ih =>
    intro root x F G hget hFG
    rw [getNode_cons] at hget
    rw [modifyNode_cons, modifyNode_cons]
    cases hc : root.children.get? i with
    | none => rw [hc] at hget; simp at hget
    | some c =>
      rw [hc] at hget
      simp only [Option.some_bind] at hget
      congr 1
      exact listModify_eq_of_get? _ i c hc (ih c x _ _ hget hFG)

theorem listModify_append_length (f : α → α) :
    ∀ (l : List α) (x : α), listModify f l.length (l ++ [x]) = l ++ [f x] := by
  intro l
  induction l with
  | nil => intro x; rfl
  | cons y ys ih => intro x; simp [listModify, ih]

theorem findChildIdx_eq_none {nm : String} :
    ∀ {l : List Measurement}, (∀ c ∈ l, c.name ≠ nm) →
      Measurement.findChildIdx nm l = none := by
  intro l
  induction l with
  | nil => intro _; rfl
  | cons c cs ih =>
    intro h
    simp only [Measurement.findChildIdx]
    rw [if_neg (h c (List.mem_cons_self c cs)), ih (fun x hx => h x (List.mem_cons_of_mem c hx))]
    rfl

theorem findChildIdx_append_fresh {nm : String} {x : Measurement} :
    ∀ {l : List Measurement}, (∀ c ∈ l, c.name ≠ nm) → x.name = nm →
      Measurement.findChildIdx nm (l ++ [x]) = some l.length := by
  intro l
  induction l with
  | nil =>
    intro _ hx
    simp [Measurement.findChildIdx, hx]
  | cons c cs ih =>
    intro h hx
    show (if c.name = nm then some 0
        else (Measurement.findChildIdx nm (cs ++ [x])).map (· + 1)) = some (c :: cs).length
    rw [if_neg (h c (List.mem_cons_self c cs)),
      ih (fun y hy => h y (List.mem_cons_of_mem c hy)) hx]
    rfl

/-- One enter/exit round when the child is already present at index `i₀`:
`measure` takes the found branch (re-activate, push), the tracker drop pops
and records.  The net effect is one composite update of the parent. -/
theorem c4_round_found (nm : String) (d o1 o2 : Dur) (p : List Nat)
    (rest : List (List Nat)) (root Pk : Measurement) (i₀ : Nat)
    (hget : getNode root p = some Pk)
    (hidx : Measurement.findChildIdx nm Pk.children = some i₀) :
    runOps [Op.enter nm, Op.leave d o1 o2] ⟨root, p :: rest⟩
      = some ⟨modifyNode root p (fun n => n.withChildren
          (listModify (fun c => (c.setMeasuring true).recordExit d o1 o2) i₀ n.children)),
        p :: rest⟩ := by
  have h1 : measureOp nm ⟨root, p :: rest⟩
      = some ⟨modifyNode root (p ++ [i₀]) (fun m => m.setMeasuring true),
          (p ++ [i₀]) :: p :: rest⟩ := by
    simp [measureOp, hget, hidx]
  have h2 : scopeExit d o1 o2
      (⟨modifyNode root (p ++ [i₀]) (fun m => m.setMeasuring true),
        (p ++ [i₀]) :: p :: rest⟩ : PState)
      = some ⟨modifyNode (modifyNode root (p ++ [i₀]) (fun m => m.setMeasuring true))
          (p ++ [i₀]) (fun m => m.recordExit d o1 o2), p :: rest⟩ := by
    simp [scopeExit]
  simp only [runOps, stepOp, h1, h2, Option.some_bind]
  rw [modifyNode_comp, modifyNode_append_singleton]

/-- One enter/exit round when no child of that name exists yet: `measure`
appends a fresh node (depth = current stack length) and pushes it, the drop
records into it. -/
theorem c4_round_fresh (nm : String) (d o1 o2 : Dur) (p : List Nat)
    (rest : List (List Nat)) (root P0 : Measurement)
    (hget : getNode root p = some P0)
    (hidx : Measurement.findChildIdx nm P0.children = none) :
    runOps [Op.enter nm, Op.leave d o1 o2] ⟨root, p :: rest⟩
      = some ⟨modifyNode root p (fun n => Measurement.withChildren
          (n.appendChild (.mk nm (rest.length + 1) Dur.zero [] [] [] true) nm)
          (listModify (fun c => c.recordExit d o1 o2) P0.children.length
            (n.appendChild (.mk nm (rest.length + 1) Dur.zero [] [] [] true) nm).children)),
        p :: rest⟩ := by
  have h1 : measureOp nm ⟨root, p :: rest⟩
      = some ⟨modifyNode root p
          (fun n => n.appendChild (.mk nm (rest.length + 1) Dur.zero [] [] [] true) nm),
          (p ++ [P0.children.length]) :: p :: rest⟩ := by
    simp [measureOp, hget, hidx]
  have h2 : scopeExit d o1 o2
      (⟨modifyNode root p
          (fun n => n.appendChild (.mk nm (rest.length + 1) Dur.zero [] [] [] true) nm),
        (p ++ [P0.children.length]) :: p :: rest⟩ : PState)
      = some ⟨modifyNode (modifyNode root p
          (fun n => n.appendChild (.mk nm (rest.length + 1) Dur.zero [] [] [] true) nm))
          (p ++ [P0.children.length]) (fun m => m.recordExit d o1 o2), p :: rest⟩ := by
    simp [scopeExit]
  simp only [runOps, stepOp, h1, h2, Option.some_bind]
  rw [modifyNode_append_singleton, modifyNode_comp]

/-- The state after `k ≥ 1` complete rounds: the parent gained exactly one
child — the merged node with `k` samples — and the stack is back where it
started. -/
theorem c4_invariant (nm : String) (d o1 o2 : Dur) (p : List Nat)
    (rest : List (List Nat)) (root P0 : Measurement)
    (hget : getNode root p = some P0)
    (hfresh : ∀ c ∈ P0.children, c.name ≠ nm) :
    ∀ k, 1 ≤ k →
      runOps (loopOps nm d o1 o2 k) ⟨root, p :: rest⟩
        = some ⟨modifyNode root p
            (fun n => n.appendChild (childAfter nm (rest.length + 1) d o1 o2 k) nm),
          p :: rest⟩ := by
  intro k hk
  induction k, hk using Nat.le_induction with
  | base =>
    have h0 : runOps (loopOps nm d o1 o2 1) ⟨root, p :: rest⟩
        = runOps [Op.enter nm, Op.leave d o1 o2] ⟨root, p :: rest⟩ := rfl
    rw [h0, c4_round_fresh nm d o1 o2 p rest root P0 hget (findChildIdx_eq_none hfresh)]
    refine congrArg some (congrArg (fun r => PState.mk r (p :: rest)) ?_)
    refine modifyNode_congr_at p root P0 _ _ hget ?_
    cases P0 with
      | mk n dP oh ds cs cns mc =>
        simp only [Measurement.appendChild, Measurement.children, Measurement.name,
          Measurement.depth, Measurement.overhead, Measurement.durations,
          Measurement.childrenNames, Measurement.measuringCurrently,
          Measurement.withChildren, listModify_append_length]
        simp [Measurement.recordExit, childAfter, ohAfter, Dur.zero,
          Measurement.name, Measurement.depth, Measurement.overhead,
          Measurement.durations, Measurement.children, Measurement.childrenNames]
  | succ k hk ih =>
    have hsplit : loopOps nm d o1 o2 (k + 1)
        = loopOps nm d o1 o2 k ++ [Op.enter nm, Op.leave d o1 o2] := rfl
    rw [hsplit, runOps_append, ih, Option.some_bind]
    have hgetk : getNode (modifyNode root p
        (fun n => n.appendChild (childAfter nm (rest.length + 1) d o1 o2 k) nm)) p
        = some (P0.appendChild (childAfter nm (rest.length + 1) d o1 o2 k) nm) := by
      rw [getNode_modifyNode_self, hget]
      rfl
    have hchild : (P0.appendChild (childAfter nm (rest.length + 1) d o1 o2 k) nm).children
        = P0.children ++ [childAfter nm (rest.length + 1) d o1 o2 k] := by
      cases P0 <;> rfl
    have hidx : Measurement.findChildIdx nm
        (P0.appendChild (childAfter nm (rest.length + 1) d o1 o2 k) nm).children
        = some P0.children.length := by
      rw [hchild]
      exact findChildIdx_append_fresh hfresh rfl
    rw [c4_round_found nm d o1 o2 p rest _ _ _ hgetk hidx, modifyNode_comp]
    refine congrArg some (congrArg (fun r => PState.mk r (p :: rest)) ?_)
    refine modifyNode_congr_at p root P0 _ _ hget ?_
    cases P0 with
      | mk n dP oh ds cs cns mc =>
        simp only [Measurement.appendChild, Measurement.children, Measurement.name,
          Measurement.depth, Measurement.overhead, Measurement.durations,
          Measurement.childrenNames, Measurement.measuringCurrently,
          Measurement.withChildren, listModify_append_length]
        simp [Measurement.setMeasuring, Measurement.recordExit, childAfter, ohAfter,
          List.replicate_succ', Measurement.name, Measurement.depth, Measurement.overhead,
          Measurement.durations, Measurement.children, Measurement.childrenNames]

/-- **C4.** Entering and fully exiting a scope of name `nm` under the same
parent `N ≥ 1` times (the parent on top of the stack, no child of that name
yet) leaves the stack unchanged and produces *exactly one* child of that name
under the parent — not `N` siblings — and that child's recorded sample count
is `N`. -/
theorem c4_reentry_merges_into_one_child (nm : String) (d o1 o2 : Dur)
    (p : List Nat) (rest : List (List Nat)) (root P0 : Measurement) (N : Nat)
    (hN : 1 ≤ N)
    (hget : getNode root p = some P0)
    (hfresh : ∀ c ∈ P0.children, c.name ≠ nm) :
    ∃ σ' P', runOps (loopOps nm d o1 o2 N) ⟨root, p :: rest⟩ = some σ' ∧
      σ'.stack = p :: rest ∧
      getNode σ'.root p = some P' ∧
      (P'.children.filter (fun c => c.name == nm)).length = 1 ∧
      ∀ c ∈ P'.children, c.name = nm → c.durations.length = N := by
  refine ⟨_, P0.appendChild (childAfter nm (rest.length + 1) d o1 o2 N) nm,
    c4_invariant nm d o1 o2 p rest root P0 hget hfresh N hN, rfl, ?_, ?_, ?_⟩
  · show getNode (modifyNode root p _) p = _
    rw [getNode_modifyNode_self, hget]
    rfl
  · have hchild : (P0.appendChild (childAfter nm (rest.length + 1) d o1 o2 N) nm).children
        = P0.children ++ [childAfter nm (rest.length + 1) d o1 o2 N] := by
      cases P0 <;> rfl
    rw [hchild, List.filter_append]
    have hnil : P0.children.filter (fun c => c.name == nm) = [] := by
      rw [List.filter_eq_nil]
      intro c hc
      simp [hfresh c hc]
    rw [hnil]
    simp [childAfter, Measurement.name]
  · intro c hc hname
    have hchild : (P0.appendChild (childAfter nm (rest.length + 1) d o1 o2 N) nm).children
        = P0.children ++ [childAfter nm (rest.length + 1) d o1 o2 N] := by
      cases P0 <;> rfl
    rw [hchild] at hc
    rcases List.mem_append.mp hc with hc | hc
    · exact absurd hname (hfresh c hc)
    · have : c = childAfter nm (rest.length + 1) d o1 o2 N := by simpa using hc
      rw [this]
      simp [childAfter, Measurement.durations]

/-- Witness for C4: two rounds of `"work"` under the fresh root. -/
theorem c4_reentry_merges_into_one_child_witness :
    (1 ≤ 2 ∧ getNode initPState.root [] = some initPState.root ∧
        ∀ c ∈ initPState.root.children, c.name ≠ "work") ∧
      ∃ σ' P', runOps (loopOps "work" ⟨0, 40⟩ ⟨0, 1⟩ ⟨0, 2⟩ 2) ⟨initPState.root, [] :: []⟩
            = some σ' ∧
        σ'.stack = [] :: [] ∧
        getNode σ'.root [] = some P' ∧
        (P'.children.filter (fun c => c.name == "work")).length = 1 ∧
        ∀ c ∈ P'.children, c.name = "work" → c.durations.length = 2 :=
  ⟨⟨by decide, rfl, by decide⟩,
    c4_reentry_merges_into_one_child "work" ⟨0, 40⟩ ⟨0, 1⟩ ⟨0, 2⟩ [] []
      initPState.root initPState.root 2 (by decide) rfl (by decide)⟩

/-! ## The renderer (src/formatter.rs)

`get_formatted_string` walks `get_measures()` — the preorder clone of the
tree, root first (`collect_all_children` pushes `self` before recursing) —
and reconstructs each node's ancestor chain through the live `parent` `Arc`s.
The embedding couples each traversed node with its ancestor chain up front
(`Ctx`); `get_ancestor(g)` is then `ancestors.get? g` (generation 0 = parent),
exactly the chain the recursive `get_ancestor` walks.

Per-row output is embedded as a structured `Row` rather than the final
`String`: the "no data" branch keeps the name, the metrics branch keeps the
branch string plus the two computed numbers.  The f64 expressions
`100.0 * (duration as f64 / parent_duration as f64)` and
`(duration * count / main_count) as f64 / 1_000_000.0` are modelled over `ℚ`,
with `none` standing for the non-finite f64 results (`NaN` from `0.0/0.0`,
`∞` from `x/0.0`) of a zero divisor; where the claims below assert exact
values (a self-basis ratio `d/d` with `d ≠ 0`, integer-valued counters) the
f64 computation is exact, so the rational model is faithful there.  The
`max_width` padding pre-pass only pads the branch column and is dropped. -/

/-- `FormattingOptions` (the six glyph strings). -/
structure FormattingOptions where
  startingBranch : String
  continuingBranch : String
  branchingBranch : String
  turningBranch : String
  endingBranch : String
  turningEndingBranch : String
deriving Repr

/-- The `STREAMLINED` preset of src/formatter.rs (its inner `format`
module). -/
def STREAMLINED : FormattingOptions :=
  ⟨"╶", "│", "├", "└", "─╼", "──┬╼"⟩

/-- A traversed node together with its ancestor chain, nearest (parent)
first — the data `construct_tree_branch` reads through `measurement.parent`
and `get_ancestor`. -/
structure Ctx where
  node : Measurement
  ancestors : List Measurement
deriving Repr

mutual
/-- Preorder traversal with ancestor chains: the node itself first (matching
`collect_all_children`), then each child's subtree in order. -/
def collectCtx : Measurement → List Measurement → List Ctx
  | .mk n d oh ds cs cns mc, ancs =>
    ⟨.mk n d oh ds cs cns mc, ancs⟩
      :: collectCtxChildren cs (.mk n d oh ds cs cns mc :: ancs)

def collectCtxChildren : List Measurement → List Measurement → List Ctx
  | [], _ => []
  | c :: cs, ancs => collectCtx c ancs ++ collectCtxChildren cs ancs
end

/-- `get_measures()` as seen by the renderer: the whole tree in preorder,
root at index 0, each node paired with its ancestors. -/
def ctxList (m : Measurement) : List Ctx := collectCtx m []

/-- `format!("{:width$}", s)`: left-justify `s` in `width` columns (no
truncation); widths are in characters (`chars().count()`), which is
`String.length`. -/
def padTo (s : String) (w : Nat) : String :=
  s ++ String.mk (List.replicate (w - s.length) ' ')

/-- The per-column glyphs of `construct_tree_branch` (the `for d in 0..depth`
loop).  Final column (`d == depth - 1`): start glyph at depth 1, else
branching/turning by the parent's last-child-name test (`leaf = true`).
Earlier columns: blank padding of width `|ending| + |continuing|`, upgraded to
a padded continuation glyph only when `d > 0`, the ancestor at `generation`
exists, and that ancestor's last-child-name test (`leaf = false`) rejects the
younger ancestor's name.  The `none` fallbacks mirror the source's `unwrap`s
on branches that cannot be reached from a traversal context. -/
def constructColumns (ops : FormattingOptions) (c : Ctx) : List String :=
  let notLastLeaf : Bool :=
    match c.ancestors with
    | parent :: _ => !(parent.isLastChildName c.node.name true)
    | [] => false
  let width := ops.endingBranch.length + ops.continuingBranch.length
  (List.range c.node.depth).map fun d =>
    if d + 1 = c.node.depth then
      if c.node.depth = 1 then ops.startingBranch
      else if notLastLeaf then ops.branchingBranch
      else ops.turningBranch
    else
      let generation := c.node.depth - 1 - d
      if 0 < d ∧ 1 ≤ generation then
        match c.ancestors.get? generation with
        | some anc =>
          match c.ancestors.get? (generation - 1) with
          | some younger =>
            if !(anc.isLastChildName younger.name false) then
              padTo ops.continuingBranch width
            else padTo "" width
          | none => padTo "" width
        | none => padTo "" width
      else padTo "" width

/-- `construct_tree_branch`: the joined columns, the turning-ending glyph when
the node has children (plain ending otherwise — also for the parentless root,
which the report loop never renders), a space, and the name. -/
def constructTreeBranch (ops : FormattingOptions) (c : Ctx) : String :=
  let hasChild : Bool :=
    match c.ancestors with
    | _ :: _ => c.node.hasChildren
    | [] => false
  String.join (constructColumns ops c)
    ++ (if hasChild then ops.turningEndingBranch else ops.endingBranch)
    ++ " " ++ c.node.name

/-- One rendered report row: the "no data" placeholder
(`result += &format!(" {}\n", name)`) or a metrics row (branch column,
percentage, ms/loop). -/
inductive Row where
  | noData (name : String)
  | metrics (branch : String) (pct : Option ℚ) (msPerLoop : ℚ)
deriving Repr

/-- The `main_count` update: inside the `Some(duration)` branch, a depth-1
node overwrites `main_count` with its own sample count *before* the row's
numbers are computed; nodes without samples leave it untouched. -/
def stepMc (mc : Nat) (c : Ctx) : Nat :=
  match getAvgDurationNs c.node with
  | some _ => if c.node.depth = 1 then c.node.durations.length else mc
  | none => mc

/-- The percentage basis `parent_duration`: the parent's average when
`depth > 1` and the parent has one, the node's own (`dv`) otherwise, also for
depth ≤ 1; the `[]` ancestor fallback mirrors the source's `unwrap`,
unreachable for non-root rows. -/
def parentDur (c : Ctx) (dv : Nat) : Nat :=
  if 1 < c.node.depth then
    match c.ancestors with
    | pm :: _ =>
      match getAvgDurationNs pm with
      | some pdv => pdv
      | none => dv
    | [] => dv
  else dv

/-- One loop iteration of `get_formatted_string` (root already skipped),
given the already-updated `main_count`: no samples → the placeholder row;
otherwise percentage `100 * d / parent_duration` (`none` for a zero divisor,
where f64 yields NaN/∞), and `(d * count / main_count)` in integer
arithmetic divided by `10^6`. -/
def rowOf (ops : FormattingOptions) (c : Ctx) (mc : Nat) : Row :=
  match getAvgDurationNs c.node with
  | none => Row.noData c.node.name
  | some dv =>
    Row.metrics (constructTreeBranch ops c)
      (if parentDur c dv = 0 then none else some (100 * (dv : ℚ) / (parentDur c dv : ℚ)))
      (((dv * c.node.durations.length / mc : Nat) : ℚ) / 1000000)

/-- The report loop over the remaining traversal, threading `main_count`. -/
def renderGo (ops : FormattingOptions) : List Ctx → Nat → List Row
  | [], _ => []
  | c :: rest, mc =>
    let mc' := stepMc mc c
    rowOf ops c mc' :: renderGo ops rest mc'

/-- `get_formatted_string` as a row list: skip index 0 (the root), start with
`main_count = 1`, emit one row per remaining node.  The returned string is the
concatenation of one `...\n` line per row, so it is empty exactly when this
list is. -/
def renderRows (ops : FormattingOptions) (m : Measurement) : List Row :=
  renderGo ops ((ctxList m).drop 1) 1

/-- **C9.** When no scope has ever been entered the tree is just the root
node; the report loop skips index 0 and renders nothing — no metrics row and
no placeholder row — so the returned string is empty. -/
theorem c9_empty_tree_renders_nothing (ops : FormattingOptions) (m : Measurement)
    (h : m.children = []) : renderRows ops m = [] := by
  cases m with
  | mk n d oh ds cs cns mc =>
    simp only [Measurement.children] at h
    subst h
    rfl

/-- Witness for C9: the engine's initial root. -/
theorem c9_empty_tree_renders_nothing_witness :
    initPState.root.children = [] ∧ renderRows STREAMLINED initPState.root = [] :=
  ⟨rfl, c9_empty_tree_renders_nothing STREAMLINED initPState.root rfl⟩

/-- `main_count` after a traversal prefix. -/
def mcFold (mc : Nat) (l : List Ctx) : Nat := l.foldl stepMc mc

/-- Each row equals `rowOf` at its traversal node with the `main_count`
accumulated over the prefix ending at that node. -/
theorem renderGo_get? (ops : FormattingOptions) :
    ∀ (l : List Ctx) (mc : Nat) (i : Nat),
      (renderGo ops l mc).get? i
        = (l.get? i).map (fun c => rowOf ops c (mcFold mc (l.take (i + 1)))) := by
  intro l
  induction l with
  | nil => intro mc i; rfl
  | cons c rest ih =>
    intro mc i
    cases i with
    | zero => rfl
    | succ j =>
      simp only [renderGo, List.get?, List.take, mcFold, List.foldl]
      exact ih (stepMc mc c) j

theorem getAvgDurationNs_eq_none {m : Measurement} (h : m.durations = []) :
    getAvgDurationNs m = none := by
  simp [getAvgDurationNs, h]

/-- **C8.** Every non-root node present in the tree at report time with zero
recorded samples produces the explicit "no data" placeholder row (the bare
name) at its position in the report, in place of a metrics row; rendering
still returns normally (total function — no error path). -/
theorem c8_no_samples_renders_placeholder (ops : FormattingOptions)
    (m : Measurement) (i : Nat) (c : Ctx)
    (hc : (ctxList m).get? (i + 1) = some c)
    (hnd : c.node.durations = []) :
    (renderRows ops m).get? i = some (Row.noData c.node.name) := by
  have hdrop : ((ctxList m).drop 1).get? i = some c := by
    rw [List.get?_drop, Nat.add_comm]
    exact hc
  rw [renderRows, renderGo_get?, hdrop]
  simp only [Option.map_some']
  rw [rowOf, getAvgDurationNs_eq_none hnd]

/-- C8's witness input: a scope node declared but never executed (empty
`durations`) under the root. -/
def exC8Child : Measurement := .mk "never-run" 1 Dur.zero [] [] [] true

/-- C8's witness input: the root holding `exC8Child`. -/
def exC8 : Measurement := .mk "root" 0 Dur.zero [] [exC8Child] ["never-run"] true

/-- Witness for C8 at `exC8`. -/
theorem c8_no_samples_renders_placeholder_witness :
    ((ctxList exC8).get? 1 = some ⟨exC8Child, [exC8]⟩ ∧ exC8Child.durations = []) ∧
      (renderRows STREAMLINED exC8).get? 0 = some (Row.noData exC8Child.name) :=
  ⟨⟨rfl, rfl⟩,
    c8_no_samples_renders_placeholder STREAMLINED exC8 0 ⟨exC8Child, [exC8]⟩ rfl rfl⟩

/-! ### C5 / C6: the computed metrics -/

/-- The ms/loop number of the report row at index `i` (`none` for a
placeholder row or out of range). -/
def rowMs (rows : List Row) (i : Nat) : Option ℚ :=
  match rows.get? i with
  | some (Row.metrics _ _ ms) => some ms
  | _ => none

/-- The percentage of the report row at index `i` (`some none` marks a metrics
row whose f64 percentage is non-finite). -/
def rowPct (rows : List Row) (i : Nat) : Option (Option ℚ) :=
  match rows.get? i with
  | some (Row.metrics _ p _) => some p
  | _ => none

/-- A depth-1 traversal node carrying at least one sample — exactly the nodes
that overwrite `main_count`. -/
def isDepth1WithData (c : Ctx) : Bool :=
  c.node.depth == 1 && !c.node.durations.isEmpty

/-- The loop-count basis in force for row `i`: the sample count of the last
depth-1 node *with data* at or before that row (`1` before any such node).
Depth-1 nodes without samples do not reset the basis. -/
def specRootCount (m : Measurement) (i : Nat) : Nat :=
  (((((ctxList m).drop 1).take (i + 1)).filter isDepth1WithData).getLast?.map
    (fun c => c.node.durations.length)).getD 1

theorem stepMc_eq (mc : Nat) (c : Ctx) :
    stepMc mc c = if isDepth1WithData c then c.node.durations.length else mc := by
  cases hd : c.node.durations with
  | nil =>
    rw [stepMc, getAvgDurationNs_eq_none hd]
    simp [isDepth1WithData, hd]
  | cons x xs =>
    have hlen : c.node.durations.length ≠ 0 := by simp [hd]
    rw [stepMc, getAvgDurationNs, if_neg hlen]
    simp only [isDepth1WithData, hd]
    by_cases h1 : c.node.depth = 1 <;> simp [h1]

theorem mcFold_eq :
    ∀ (l : List Ctx) (mc : Nat),
      mcFold mc l = ((l.filter isDepth1WithData).getLast?.map
        (fun c => c.node.durations.length)).getD mc := by
  intro l
  induction l with
  | nil => intro mc; rfl
  | cons c rest ih =>
    intro mc
    have h1 : mcFold mc (c :: rest) = mcFold (stepMc mc c) rest := rfl
    rw [h1, ih, stepMc_eq]
    cases hd1 : isDepth1WithData c with
    | false => simp [List.filter_cons_of_neg, hd1]
    | true =>
      rw [if_pos rfl, List.filter_cons_of_pos (by rw [hd1])]
      cases hr : rest.filter isDepth1WithData with
      | nil => simp
      | cons x xs =>
        rw [List.getLast?_cons_cons]
        cases hlast : (x :: xs).getLast? with
        | none => exact absurd hlast (by simp)
        | some y => simp [hlast]

/-- C5's counterexample node: one depth-1 scope with two samples of 1 ns and
2 ns (corrected total 3 ns over 2 samples). -/
def exC5A : Measurement := .mk "a" 1 Dur.zero [⟨0, 1⟩, ⟨0, 2⟩] [] [] false

/-- C5's counterexample tree. -/
def exC5 : Measurement := .mk "root" 0 Dur.zero [] [exC5A] ["a"] true

/-- **C5 counterexample.** The claim says the rendered ms/loop equals the
node's corrected total duration divided by `root_count`, in milliseconds.
For `exC5A` the corrected total is 3 ns and its own count (= `root_count`
for a depth-1 node) is 2, so the claimed value is `3/2/10^6` ms — but the
renderer computes through the integer per-sample average
(`3 / 2 = 1` ns) and integer division by `main_count`, producing `1/10^6` ms.
The two differ. -/
theorem c5_cex_msPerLoop_truncates :
    rowMs (renderRows STREAMLINED exC5) 0 = some (((1 : Nat) : ℚ) / 1000000) ∧
      specTrueDurationNs exC5A = 3 ∧
      exC5A.depth = 1 ∧
      exC5A.durations.length = 2 ∧
      ((1 : Nat) : ℚ) / 1000000 ≠ (3 : ℚ) / 2 / 1000000 := by
  refine ⟨rfl, rfl, rfl, rfl, by norm_num⟩

/-- **C5 (amended).** The rendered ms/loop of every row with data equals the
node's corrected *integer per-sample average* (`true_duration_ns / count`,
whole nanoseconds) times its count, divided — in integer division — by
`root_count`, then converted to milliseconds; `root_count` is the count of
the most recent depth-1 node *with data* in traversal order (`1` if none yet;
depth-1 nodes without samples do not reset it). -/
theorem c5_amended_msPerLoop (ops : FormattingOptions) (m : Measurement)
    (i : Nat) (c : Ctx)
    (hc : (ctxList m).get? (i + 1) = some c)
    (hd : c.node.durations ≠ []) :
    rowMs (renderRows ops m) i
      = some (((specTrueDurationNs c.node / c.node.durations.length
          * c.node.durations.length / specRootCount m i : Nat) : ℚ) / 1000000) := by
  have hdrop : ((ctxList m).drop 1).get? i = some c := by
    rw [List.get?_drop, Nat.add_comm]
    exact hc
  have hrow : (renderRows ops m).get? i
      = some (rowOf ops c (mcFold 1 (((ctxList m).drop 1).take (i + 1)))) := by
    rw [renderRows, renderGo_get?, hdrop]
    rfl
  have hlen : c.node.durations.length ≠ 0 := fun h => hd (List.length_eq_zero.mp h)
  have havg : getAvgDurationNs c.node
      = some (specTrueDurationNs c.node / c.node.durations.length) := by
    rw [getAvgDurationNs, if_neg hlen]
  rw [rowMs, hrow, rowOf, havg, mcFold_eq]
  rfl

/-- C5's witness node: depth 1, two 6 ns samples. -/
def exC5WChild : Measurement := .mk "w" 1 Dur.zero [⟨0, 6⟩, ⟨0, 6⟩] [] [] false

/-- C5's witness tree. -/
def exC5W : Measurement := .mk "root" 0 Dur.zero [] [exC5WChild] ["w"] true

/-- Witness for the amended C5. -/
theorem c5_amended_msPerLoop_witness :
    ((ctxList exC5W).get? 1 = some ⟨exC5WChild, [exC5W]⟩ ∧
        exC5WChild.durations ≠ []) ∧
      rowMs (renderRows STREAMLINED exC5W) 0
        = some (((specTrueDurationNs exC5WChild / exC5WChild.durations.length
            * exC5WChild.durations.length / specRootCount exC5W 0 : Nat) : ℚ) / 1000000) :=
  ⟨⟨rfl, by decide⟩,
    c5_amended_msPerLoop STREAMLINED exC5W 0 ⟨exC5WChild, [exC5W]⟩ rfl (by decide)⟩

/-- C6's counterexample node: a depth-1 scope with one recorded sample of
zero duration, whose corrected duration is 0. -/
def exC6B : Measurement := .mk "b" 1 Dur.zero [⟨0, 0⟩] [] [] false

/-- C6's counterexample tree. -/
def exC6 : Measurement := .mk "root" 0 Dur.zero [] [exC6B] ["b"] true

/-- **C6 counterexample.** The claim says the percentage of every depth-1
node with at least one recorded sample is exactly 100.0.  `exC6B` is a
depth-1 node with one sample, but its corrected duration is 0, so the
renderer computes `100.0 * (0 as f64 / 0 as f64)` — NaN, not 100.0
(`none` in the rational model marks the non-finite value). -/
theorem c6_cex_zero_duration_percentage :
    rowPct (renderRows STREAMLINED exC6) 0 = some none ∧
      exC6B.depth = 1 ∧
      exC6B.durations.length = 1 ∧
      (none : Option ℚ) ≠ some 100 := by
  refine ⟨rfl, rfl, rfl, by simp⟩

/-- **C6 (amended).** Whenever a row's percentage basis is the node's own
corrected duration (depth ≤ 1, or a parent without a recorded duration) *and
that duration is nonzero*, the printed percentage is exactly 100 (the f64
ratio `d/d = 1.0` is exact, so the rational model is faithful here). -/
theorem c6_amended_self_basis_percentage (ops : FormattingOptions)
    (m : Measurement) (i : Nat) (c : Ctx) (dv : Nat)
    (hc : (ctxList m).get? (i + 1) = some c)
    (hd : getAvgDurationNs c.node = some dv)
    (hdv : dv ≠ 0)
    (hbasis : c.node.depth ≤ 1 ∨
      ∃ pm r, c.ancestors = pm :: r ∧ getAvgDurationNs pm = none) :
    rowPct (renderRows ops m) i = some (some 100) := by
  have hdrop : ((ctxList m).drop 1).get? i = some c := by
    rw [List.get?_drop, Nat.add_comm]
    exact hc
  have hrow : (renderRows ops m).get? i
      = some (rowOf ops c (mcFold 1 (((ctxList m).drop 1).take (i + 1)))) := by
    rw [renderRows, renderGo_get?, hdrop]
    rfl
  have hrowval : rowOf ops c (mcFold 1 (((ctxList m).drop 1).take (i + 1)))
      = Row.metrics (constructTreeBranch ops c)
          (if parentDur c dv = 0 then none
            else some (100 * (dv : ℚ) / (parentDur c dv : ℚ)))
          (((dv * c.node.durations.length
              / mcFold 1 (((ctxList m).drop 1).take (i + 1)) : Nat) : ℚ) / 1000000) := by
    rw [rowOf, hd]
  rw [rowPct, hrow, hrowval]
  have hpd : parentDur c dv = dv := by
    rcases hbasis with hle | ⟨pm, r, hanc, hpmnone⟩
    · rw [parentDur, if_neg (by omega)]
    · by_cases h1 : 1 < c.node.depth
      · rw [parentDur, if_pos h1, hanc]
        show (match getAvgDurationNs pm with
          | some pdv => pdv
          | none => dv) = dv
        rw [hpmnone]
      · rw [parentDur, if_neg h1]
  show some (if parentDur c dv = 0 then none
      else some (100 * (dv : ℚ) / (parentDur c dv : ℚ))) = some (some 100)
  rw [hpd, if_neg hdv]
  have h100 : (100 : ℚ) * (dv : ℚ) / (dv : ℚ) = 100 := by
    rw [mul_div_assoc, div_self (Nat.cast_ne_zero.mpr hdv), mul_one]
  rw [h100]

/-- C6's witness node: depth 1, one 5 ns sample, corrected duration 5 ns. -/
def exC6WChild : Measurement := .mk "g" 1 Dur.zero [⟨0, 5⟩] [] [] false

/-- C6's witness tree. -/
def exC6W : Measurement := .mk "root" 0 Dur.zero [] [exC6WChild] ["g"] true

/-- Witness for the amended C6. -/
theorem c6_amended_self_basis_percentage_witness :
    ((ctxList exC6W).get? 1 = some ⟨exC6WChild, [exC6W]⟩ ∧
        getAvgDurationNs exC6WChild = some 5 ∧ (5 : Nat) ≠ 0 ∧
        exC6WChild.depth ≤ 1) ∧
      rowPct (renderRows STREAMLINED exC6W) 0 = some (some 100) :=
  ⟨⟨rfl, rfl, by decide, by decide⟩,
    c6_amended_self_basis_percentage STREAMLINED exC6W 0 ⟨exC6WChild, [exC6W]⟩ 5
      rfl rfl (by decide) (Or.inl (by decide))⟩

/-! ### C7: the branch columns -/

/-- C7's counterexample, grandchild: the node whose column 0 is at issue. -/
def exC7x2 : Measurement := .mk "x2" 2 Dur.zero [⟨0, 1⟩] [] [] false

/-- C7's counterexample: first (not last) top-level scope, holding `exC7x2`. -/
def exC7X : Measurement := .mk "X" 1 Dur.zero [⟨0, 1⟩] [exC7x2] ["x2"] false

/-- C7's counterexample: second (last) top-level scope. -/
def exC7Y : Measurement := .mk "Y" 1 Dur.zero [⟨0, 1⟩] [] [] false

/-- C7's counterexample root: two top-level scopes. -/
def exC7root : Measurement := .mk "root" 0 Dur.zero [] [exC7X, exC7Y] ["X", "Y"] true

/-- The rendering context of `exC7x2`: parent `X`, grandparent root. -/
def exC7ctx : Ctx := ⟨exC7x2, [exC7X, exC7root]⟩

/-- **C7 counterexample.** The claim says every earlier column emits the
continuation glyph when the ancestor at that generation is not the last child
of its own parent.  For the depth-2 node `x2`, column 0's generation holds the
depth-1 ancestor `X`, which is *not* the last child of the root (`Y` is) — so
the claim demands the padded continuation glyph there.  The code's
`d > 0` guard skips column 0 unconditionally and emits blank padding
instead. -/
theorem c7_cex_column_zero_is_blank :
    (constructColumns STREAMLINED exC7ctx).get? 0 = some (padTo "" 3) ∧
      STREAMLINED.endingBranch.length + STREAMLINED.continuingBranch.length = 3 ∧
      exC7root.isLastChildName exC7X.name false = false ∧
      padTo "" 3 ≠ padTo STREAMLINED.continuingBranch 3 := by
  refine ⟨rfl, by decide, by decide, by decide⟩

theorem get?_length_sub_one_eq_getLast? :
    ∀ (l : List α), l.get? (l.length - 1) = l.getLast? := by
  intro l
  induction l with
  | nil => rfl
  | cons x xs ih =>
    cases xs with
    | nil => rfl
    | cons y ys =>
      rw [List.getLast?_cons_cons]
      show (x :: y :: ys).get? (ys.length + 1) = (y :: ys).getLast?
      rw [List.get?_cons_succ]
      have h2 : (y :: ys).length - 1 = ys.length := by simp
      rw [← h2, ih]

/-- The source's name-based last-child test agrees with "is the last-inserted
child" whenever the parallel name list is intact (`children_names` mirrors
`children` — true until `reset` desynchronises them) and sibling names are
unique (guaranteed by `get_child`'s merging). -/
theorem isLastChildName_iff_getLast {a y : Measurement} (leaf : Bool)
    (hnames : a.childrenNames = a.children.map Measurement.name)
    (hnodup : (a.children.map Measurement.name).Nodup)
    (hmem : y ∈ a.children) :
    (a.isLastChildName y.name leaf = true ↔ a.children.getLast? = some y) := by
  have hne : a.children ≠ [] := List.ne_nil_of_mem hmem
  have hlen : a.children.length ≠ 0 := fun h => hne (List.length_eq_zero.mp h)
  have hlast : a.children.getLast? = some (a.children.getLast hne) :=
    List.getLast?_eq_getLast_of_ne_nil hne
  have hmap : (a.children.map Measurement.name).get? (a.children.length - 1)
      = some ((a.children.getLast hne).name) := by
    have hg := get?_length_sub_one_eq_getLast? (a.children.map Measurement.name)
    rw [List.length_map] at hg
    rw [hg, List.getLast?_map, hlast]
    rfl
  have hcond : (leaf && a.children.length == 0) = false := by
    simp [hlen]
  have hlcn : a.lastChildName leaf = some ((a.children.getLast hne).name) := by
    rw [Measurement.lastChildName, hcond]
    simp only [Bool.false_eq_true, if_false]
    rw [hnames, hmap]
  rw [Measurement.isLastChildName, hlcn]
  simp only [decide_eq_true_eq]
  constructor
  · intro h
    rw [hlast]
    have hin : a.children.getLast hne ∈ a.children := List.getLast_mem hne
    have := List.inj_on_of_nodup_map hnodup hin hmem h
    rw [this]
  · intro h
    rw [hlast] at h
    injection h with h
    rw [h]

/-- **C7 (amended).** For a rendered node with a well-formed context (depth
field = real depth, parent/ancestor chain intact, name bookkeeping parallel
and sibling names unique — all true for trees built by the engine and never
reset):
  * the final column emits the start glyph exactly at depth 1, otherwise the
    turning glyph when the node is the last-inserted child of its parent and
    the branching glyph when it is not;
  * every earlier column except column 0 emits the padded continuation glyph
    when the ancestor at that generation is not the last-inserted child of
    its own parent, else blank padding of the same width;
  * column 0, however, is always blank padding (the source's `d > 0` guard),
    even when the depth-1 ancestor is not the last child of the root. -/
theorem c7_amended_branch_columns (ops : FormattingOptions) (c : Ctx)
    (parent : Measurement) (rest : List Measurement)
    (hanc : c.ancestors = parent :: rest)
    (hdep : c.node.depth = c.ancestors.length)
    (hmem : c.node ∈ parent.children)
    (hchain : ∀ g a b, c.ancestors.get? g = some a →
      c.ancestors.get? (g + 1) = some b → a ∈ b.children)
    (hnames : ∀ a ∈ c.ancestors, a.childrenNames = a.children.map Measurement.name)
    (hnodup : ∀ a ∈ c.ancestors, (a.children.map Measurement.name).Nodup) :
    (c.node.depth = 1 →
        (constructColumns ops c).get? (c.node.depth - 1) = some ops.startingBranch) ∧
      (1 < c.node.depth → parent.children.getLast? = some c.node →
        (constructColumns ops c).get? (c.node.depth - 1) = some ops.turningBranch) ∧
      (1 < c.node.depth → parent.children.getLast? ≠ some c.node →
        (constructColumns ops c).get? (c.node.depth - 1) = some ops.branchingBranch) ∧
      (∀ d, 0 < d → d + 1 < c.node.depth →
        ∀ a y, c.ancestors.get? (c.node.depth - 1 - d) = some a →
          c.ancestors.get? (c.node.depth - 1 - d - 1) = some y →
            (a.children.getLast? = some y →
              (constructColumns ops c).get? d
                = some (padTo "" (ops.endingBranch.length + ops.continuingBranch.length))) ∧
            (a.children.getLast? ≠ some y →
              (constructColumns ops c).get? d
                = some (padTo ops.continuingBranch
                    (ops.endingBranch.length + ops.continuingBranch.length)))) ∧
      (2 ≤ c.node.depth →
        (constructColumns ops c).get? 0
          = some (padTo "" (ops.endingBranch.length + ops.continuingBranch.length))) := by
  have hpos : 1 ≤ c.node.depth := by
    rw [hdep, hanc]
    simp
  have hcol : ∀ d, d < c.node.depth →
      (constructColumns ops c).get? d = some (
        if d + 1 = c.node.depth then
          if c.node.depth = 1 then ops.startingBranch
          else if (match c.ancestors with
              | p :: _ => !(p.isLastChildName c.node.name true)
              | [] => false) then ops.branchingBranch
          else ops.turningBranch
        else
          if 0 < d ∧ 1 ≤ c.node.depth - 1 - d then
            match c.ancestors.get? (c.node.depth - 1 - d) with
            | some anc =>
              match c.ancestors.get? (c.node.depth - 1 - d - 1) with
              | some younger =>
                if !(anc.isLastChildName younger.name false) then
                  padTo ops.continuingBranch
                    (ops.endingBranch.length + ops.continuingBranch.length)
                else padTo "" (ops.endingBranch.length + ops.continuingBranch.length)
              | none => padTo "" (ops.endingBranch.length + ops.continuingBranch.length)
            | none => padTo "" (ops.endingBranch.length + ops.continuingBranch.length)
          else padTo "" (ops.endingBranch.length + ops.continuingBranch.length)) := by
    intro d hd
    rw [constructColumns, List.get?_map, List.get?_range hd]
    rfl
  have hiffp := isLastChildName_iff_getLast true
    (hnames parent (by rw [hanc]; exact List.mem_cons_self _ _))
    (hnodup parent (by rw [hanc]; exact List.mem_cons_self _ _)) hmem
  refine ⟨?_, ?_, ?_, ?_, ?_⟩
  · intro h1
    rw [hcol (c.node.depth - 1) (by omega), if_pos (by omega : c.node.depth - 1 + 1 = c.node.depth),
      if_pos h1]
  · intro h1 hl
    rw [hcol (c.node.depth - 1) (by omega), if_pos (by omega : c.node.depth - 1 + 1 = c.node.depth),
      if_neg (by omega : ¬ c.node.depth = 1), hanc]
    show some (if (!(parent.isLastChildName c.node.name true)) = true
        then ops.branchingBranch else ops.turningBranch) = some ops.turningBranch
    rw [hiffp.mpr hl]
    rfl
  · intro h1 hl
    rw [hcol (c.node.depth - 1) (by omega), if_pos (by omega : c.node.depth - 1 + 1 = c.node.depth),
      if_neg (by omega : ¬ c.node.depth = 1), hanc]
    show some (if (!(parent.isLastChildName c.node.name true)) = true
        then ops.branchingBranch else ops.turningBranch) = some ops.branchingBranch
    have hfalse : parent.isLastChildName c.node.name true = false := by
      cases hb : parent.isLastChildName c.node.name true with
      | false => rfl
      | true => exact absurd (hiffp.mp hb) hl
    rw [hfalse]
    rfl
  · intro d hd0 hdlt a y ha hy
    have hamem : a ∈ c.ancestors := by
      obtain ⟨hlt, hget⟩ := List.get?_eq_some.mp ha
      rw [← hget]
      exact List.get_mem _ _ _
    have hymem : y ∈ a.children := by
      refine hchain (c.node.depth - 1 - d - 1) y a hy ?_
      have hidx : c.node.depth - 1 - d - 1 + 1 = c.node.depth - 1 - d := by omega
      rw [hidx]
      exact ha
    have hiffa := isLastChildName_iff_getLast false (hnames a hamem) (hnodup a hamem) hymem
    constructor
    · intro hl
      rw [hcol d (by omega), if_neg (by omega : ¬ d + 1 = c.node.depth),
        if_pos (⟨hd0, by omega⟩ : 0 < d ∧ 1 ≤ c.node.depth - 1 - d), ha]
      show some (match c.ancestors.get? (c.node.depth - 1 - d - 1) with
        | some younger =>
          if !(a.isLastChildName younger.name false) then
            padTo ops.continuingBranch (ops.endingBranch.length + ops.continuingBranch.length)
          else padTo "" (ops.endingBranch.length + ops.continuingBranch.length)
        | none => padTo "" (ops.endingBranch.length + ops.continuingBranch.length))
        = some (padTo "" (ops.endingBranch.length + ops.continuingBranch.length))
      rw [hy]
      show some (if (!(a.isLastChildName y.name false)) = true then
          padTo ops.continuingBranch (ops.endingBranch.length + ops.continuingBranch.length)
        else padTo "" (ops.endingBranch.length + ops.continuingBranch.length))
        = some (padTo "" (ops.endingBranch.length + ops.continuingBranch.length))
      rw [hiffa.mpr hl]
      rfl
    · intro hl
      rw [hcol d (by omega), if_neg (by omega : ¬ d + 1 = c.node.depth),
        if_pos (⟨hd0, by omega⟩ : 0 < d ∧ 1 ≤ c.node.depth - 1 - d), ha]
      show some (match c.ancestors.get? (c.node.depth - 1 - d - 1) with
        | some younger =>
          if !(a.isLastChildName younger.name false) then
            padTo ops.continuingBranch (ops.endingBranch.length + ops.continuingBranch.length)
          else padTo "" (ops.endingBranch.length + ops.continuingBranch.length)
        | none => padTo "" (ops.endingBranch.length + ops.continuingBranch.length))
        = some (padTo ops.continuingBranch
            (ops.endingBranch.length + ops.continuingBranch.length))
      rw [hy]
      show some (if (!(a.isLastChildName y.name false)) = true then
          padTo ops.continuingBranch (ops.endingBranch.length + ops.continuingBranch.length)
        else padTo "" (ops.endingBranch.length + ops.continuingBranch.length))
        = some (padTo ops.continuingBranch
            (ops.endingBranch.length + ops.continuingBranch.length))
      have hfalse : a.isLastChildName y.name false = false := by
        cases hb : a.isLastChildName y.name false with
        | false => rfl
        | true => exact absurd (hiffa.mp hb) hl
      rw [hfalse]
      rfl
  · intro h2
    rw [hcol 0 (by omega), if_neg (by omega : ¬ 0 + 1 = c.node.depth)]
    have hno : ¬ (0 < 0 ∧ 1 ≤ c.node.depth - 1 - 0) := fun h => absurd h.1 (by omega)
    rw [if_neg hno]

/-- Witness for the amended C7 at the concrete context of `exC7x2` (a depth-2
last child below a non-last depth-1 node): the final column turns, and
column 0 is blank. -/
theorem c7_amended_branch_columns_witness :
    (exC7ctx.ancestors = exC7X :: [exC7root] ∧
        exC7ctx.node.depth = exC7ctx.ancestors.length ∧
        exC7ctx.node ∈ exC7X.children ∧
        1 < exC7ctx.node.depth ∧
        exC7X.children.getLast? = some exC7ctx.node) ∧
      (constructColumns STREAMLINED exC7ctx).get? (exC7ctx.node.depth - 1)
          = some STREAMLINED.turningBranch ∧
        (constructColumns STREAMLINED exC7ctx).get? 0
          = some (padTo "" (STREAMLINED.endingBranch.length
              + STREAMLINED.continuingBranch.length)) :=
  have hchain : ∀ g a b, exC7ctx.ancestors.get? g = some a →
      exC7ctx.ancestors.get? (g + 1) = some b → a ∈ b.children := by
    intro g a b ha hb
    match g with
    | 0 =>
      injection ha with ha
      injection hb with hb
      rw [← ha, ← hb]
      exact List.mem_cons_self _ _
    | 1 => exact absurd hb (by simp [exC7ctx])
    | Nat.succ (Nat.succ k) => exact absurd ha (by simp [exC7ctx])
  have h := c7_amended_branch_columns STREAMLINED exC7ctx exC7X [exC7root]
    rfl rfl (List.mem_cons_self _ _) hchain (by decide) (by decide)
  ⟨⟨rfl, rfl, List.mem_cons_self _ _, by decide, rfl⟩,
    h.2.1 (by decide) rfl, h.2.2.2.2 (by decide)⟩

/-! ### C10 (amended): what `reset` does and does not change -/

/-- Structural induction over the measurement tree with the member-wise
induction hypothesis for the nested children list. -/
theorem Measurement.strongInd {P : Measurement → Prop}
    (h : ∀ n d oh ds cs cns mc, (∀ c ∈ cs, P c) →
      P (Measurement.mk n d oh ds cs cns mc)) : ∀ m, P m :=
  fun m =>
    @Measurement.rec P (fun cs => ∀ c ∈ cs, P c)
      (fun n d oh ds cs cns mc ih => h n d oh ds cs cns mc ih)
      (fun c hc => absurd hc (List.not_mem_nil c))
      (fun _ _ hc hcs x hx =>
        Or.elim (List.mem_cons.mp hx) (fun e => e ▸ hc) (hcs x))
      m

mutual
/-- Preorder projection of the per-node data `reset` must not disturb on kept
nodes: name, depth, overhead, active flag. -/
def preorderData : Measurement → List (String × Nat × Dur × Bool)
  | .mk n d oh _ cs _ mc => (n, d, oh, mc) :: preorderDataList cs

def preorderDataList : List Measurement → List (String × Nat × Dur × Bool)
  | [] => []
  | c :: cs => preorderData c ++ preorderDataList cs
end

mutual
/-- Preorder projection of every node's duration list. -/
def preorderDurs : Measurement → List (List Dur)
  | .mk _ _ _ ds cs _ _ => ds :: preorderDursList cs

def preorderDursList : List Measurement → List (List Dur)
  | [] => []
  | c :: cs => preorderDurs c ++ preorderDursList cs
end

mutual
/-- The stack invariant on activity: an active (open-tracker) node's parent is
itself active — true in the live system because a node is active exactly
while it sits on the scope stack, below all its ancestors. -/
def ancClosed : Measurement → Bool
  | .mk _ _ _ _ cs _ mc => ancClosedChildren cs mc

def ancClosedChildren : List Measurement → Bool → Bool
  | [], _ => true
  | c :: cs, mc =>
    (!(c.measuringCurrently) || mc) && ancClosed c && ancClosedChildren cs mc
end

/-- `activeOf` selects the active flag from the projected data. -/
def activeOf (x : String × Nat × Dur × Bool) : Bool := x.2.2.2

theorem preorderDataList_append :
    ∀ (l1 l2 : List Measurement),
      preorderDataList (l1 ++ l2) = preorderDataList l1 ++ preorderDataList l2 := by
  intro l1
  induction l1 with
  | nil => intro l2; rfl
  | cons c cs ih =>
    intro l2
    rw [List.cons_append, preorderDataList, preorderDataList, ih, List.append_assoc]

theorem preorderDursList_append :
    ∀ (l1 l2 : List Measurement),
      preorderDursList (l1 ++ l2) = preorderDursList l1 ++ preorderDursList l2 := by
  intro l1
  induction l1 with
  | nil => intro l2; rfl
  | cons c cs ih =>
    intro l2
    rw [List.cons_append, preorderDursList, preorderDursList, ih, List.append_assoc]

theorem ancClosedChildren_cons {c : Measurement} {cs : List Measurement} {mc : Bool}
    (h : ancClosedChildren (c :: cs) mc = true) :
    ((!(c.measuringCurrently) || mc) = true ∧ ancClosed c = true)
      ∧ ancClosedChildren cs mc = true := by
  rw [ancClosedChildren] at h
  simp only [Bool.and_eq_true] at h
  exact ⟨⟨h.1.1, h.1.2⟩, h.2⟩

/-- Under ancestor-closed activity, an inactive node's whole subtree carries
no active node: filtering its preorder data by activity yields nothing. -/
theorem filter_preorderData_inactive :
    ∀ c : Measurement, ancClosed c = true → c.measuringCurrently = false →
      (preorderData c).filter activeOf = [] := by
  intro c
  induction c using Measurement.strongInd with
  | h n d oh ds cs cns mc ih =>
    intro hcl hmc
    simp only [Measurement.measuringCurrently] at hmc
    subst hmc
    rw [preorderData, List.filter_cons_of_neg (by simp [activeOf])]
    rw [ancClosed] at hcl
    have hlist : ∀ (l : List Measurement),
        (∀ c ∈ l, ancClosed c = true → c.measuringCurrently = false →
          (preorderData c).filter activeOf = []) →
        ancClosedChildren l false = true →
        (preorderDataList l).filter activeOf = [] := by
      intro l
      induction l with
      | nil => intro _ _; rfl
      | cons x xs ihl =>
        intro hmem hcl2
        obtain ⟨⟨hx1, hx2⟩, hrest⟩ := ancClosedChildren_cons hcl2
        have hxmc : x.measuringCurrently = false := by
          cases hb : x.measuringCurrently with
          | false => rfl
          | true => rw [hb] at hx1; simp at hx1
        rw [preorderDataList, List.filter_append,
          hmem x (List.mem_cons_self x xs) hx2 hxmc,
          ihl (fun c hc => hmem c (List.mem_cons_of_mem x hc)) hrest]
        rfl
    exact hlist cs ih hcl

/-- A kept (active) node's signature data after `reset`: exactly the active
part of its old preorder data, in order, unchanged. -/
theorem preorderData_resetKept :
    ∀ c : Measurement, ancClosed c = true → c.measuringCurrently = true →
      preorderData (resetKept c) = (preorderData c).filter activeOf := by
  intro c
  induction c using Measurement.strongInd with
  | h n d oh ds cs cns mc ih =>
    intro hcl hmc
    simp only [Measurement.measuringCurrently] at hmc
    subst hmc
    rw [resetKept, preorderData, preorderData,
      List.filter_cons_of_pos (by simp [activeOf])]
    rw [ancClosed] at hcl
    have hlist : ∀ (l : List Measurement),
        (∀ c ∈ l, ancClosed c = true → c.measuringCurrently = true →
          preorderData (resetKept c) = (preorderData c).filter activeOf) →
        ancClosedChildren l true = true →
        preorderDataList (resetKeptChildren l) = (preorderDataList l).filter activeOf := by
      intro l
      induction l with
      | nil => intro _ _; rfl
      | cons x xs ihl =>
        intro hmem hcl2
        obtain ⟨⟨hx1, hx2⟩, hrest⟩ := ancClosedChildren_cons hcl2
        have hstep : resetKeptChildren (x :: xs)
            = (if x.measuringCurrently then [resetKept x] else [])
              ++ resetKeptChildren xs := rfl
        cases hxmc : x.measuringCurrently with
        | true =>
          rw [hstep, hxmc]
          show preorderDataList ([resetKept x] ++ resetKeptChildren xs)
            = (preorderDataList (x :: xs)).filter activeOf
          have h1 : preorderDataList [resetKept x] = preorderData (resetKept x) := by
            rw [preorderDataList, preorderDataList, List.append_nil]
          rw [preorderDataList_append, h1,
            hmem x (List.mem_cons_self x xs) hx2 hxmc,
            preorderDataList, List.filter_append,
            ihl (fun c hc => hmem c (List.mem_cons_of_mem x hc)) hrest]
        | false =>
          rw [hstep, hxmc]
          show preorderDataList (resetKeptChildren xs)
            = (preorderDataList (x :: xs)).filter activeOf
          rw [preorderDataList, List.filter_append,
            filter_preorderData_inactive x hx2 hxmc, List.nil_append,
            ihl (fun c hc => hmem c (List.mem_cons_of_mem x hc)) hrest]
    rw [hlist cs ih hcl]

/-- Every node below a kept node has empty durations after `reset`
(unconditionally: kept children are cleared recursively). -/
theorem preorderDurs_resetKept :
    ∀ c : Measurement, ∀ ds ∈ preorderDurs (resetKept c), ds = [] := by
  intro c
  induction c using Measurement.strongInd with
  | h n d oh ds cs cns mc ih =>
    intro x hx
    rw [resetKept, preorderDurs] at hx
    rcases List.mem_cons.mp hx with rfl | hx
    · rfl
    · have hlist : ∀ (l : List Measurement),
          (∀ c ∈ l, ∀ ds ∈ preorderDurs (resetKept c), ds = []) →
          ∀ y ∈ preorderDursList (resetKeptChildren l), y = [] := by
        intro l
        induction l with
        | nil => intro _ y hy; cases hy
        | cons z zs ihl =>
          intro hmem y hy
          have hstep : resetKeptChildren (z :: zs)
              = (if z.measuringCurrently then [resetKept z] else [])
                ++ resetKeptChildren zs := rfl
          rw [hstep] at hy
          cases hzmc : z.measuringCurrently with
          | true =>
            rw [hzmc] at hy
            have hy2 : y ∈ preorderDursList ([resetKept z] ++ resetKeptChildren zs) := hy
            rw [preorderDursList_append] at hy2
            rcases List.mem_append.mp hy2 with hy3 | hy3
            · have h1 : preorderDursList [resetKept z] = preorderDurs (resetKept z) := by
                rw [preorderDursList, preorderDursList, List.append_nil]
              rw [h1] at hy3
              exact hmem z (List.mem_cons_self z zs) y hy3
            · exact ihl (fun c hc => hmem c (List.mem_cons_of_mem z hc)) y hy3
          | false =>
            rw [hzmc] at hy
            have hy2 : y ∈ preorderDursList (resetKeptChildren zs) := hy
            exact ihl (fun c hc => hmem c (List.mem_cons_of_mem z hc)) y hy2
      exact hlist cs ih x hx

/-- Children-level version of `preorderData_resetKept`. -/
theorem preorderDataList_resetKeptChildren :
    ∀ (l : List Measurement) (mc : Bool), ancClosedChildren l mc = true →
      preorderDataList (resetKeptChildren l) = (preorderDataList l).filter activeOf := by
  intro l
  induction l with
  | nil => intro _ _; rfl
  | cons x xs ihl =>
    intro mc hcl
    obtain ⟨⟨hx1, hx2⟩, hrest⟩ := ancClosedChildren_cons hcl
    have hstep : resetKeptChildren (x :: xs)
        = (if x.measuringCurrently then [resetKept x] else [])
          ++ resetKeptChildren xs := rfl
    cases hxmc : x.measuringCurrently with
    | true =>
      rw [hstep, hxmc]
      show preorderDataList ([resetKept x] ++ resetKeptChildren xs)
        = (preorderDataList (x :: xs)).filter activeOf
      have h1 : preorderDataList [resetKept x] = preorderData (resetKept x) := by
        rw [preorderDataList, preorderDataList, List.append_nil]
      rw [preorderDataList_append, h1, preorderData_resetKept x hx2 hxmc,
        preorderDataList, List.filter_append, ihl mc hrest]
    | false =>
      rw [hstep, hxmc]
      show preorderDataList (resetKeptChildren xs)
        = (preorderDataList (x :: xs)).filter activeOf
      rw [preorderDataList, List.filter_append,
        filter_preorderData_inactive x hx2 hxmc, List.nil_append, ihl mc hrest]

/-- Children-level version of `preorderDurs_resetKept`. -/
theorem preorderDursList_resetKeptChildren :
    ∀ (l : List Measurement), ∀ ds ∈ preorderDursList (resetKeptChildren l), ds = [] := by
  intro l
  induction l with
  | nil => intro y hy; cases hy
  | cons z zs ihl =>
    intro y hy
    have hstep : resetKeptChildren (z :: zs)
        = (if z.measuringCurrently then [resetKept z] else [])
          ++ resetKeptChildren zs := rfl
    rw [hstep] at hy
    cases hzmc : z.measuringCurrently with
    | true =>
      rw [hzmc] at hy
      have hy2 : y ∈ preorderDursList ([resetKept z] ++ resetKeptChildren zs) := hy
      rw [preorderDursList_append] at hy2
      rcases List.mem_append.mp hy2 with hy3 | hy3
      · have h1 : preorderDursList [resetKept z] = preorderDurs (resetKept z) := by
          rw [preorderDursList, preorderDursList, List.append_nil]
        rw [h1] at hy3
        exact preorderDurs_resetKept z y hy3
      · exact ihl y hy3
    | false =>
      rw [hzmc] at hy
      exact ihl y hy

/-- **C10 (amended).** When `reset` completes without panicking (no inactive
depth-1 node) on a tree with ancestor-closed activity, it changes only two
things per kept node: the `durations` sequences (all cleared below the root)
and the `children` lists (inactive children detached).  Everything else is
preserved: the surviving nodes are exactly the previously active ones, in
traversal order, each keeping its name, depth, accumulated overhead and
active flag; the root keeps all its own fields. -/
theorem c10_amended_reset_changes_only_durations_and_children
    (m m' : Measurement) (hanc : ancClosed m = true)
    (h : resetMeasurement m = some m') :
    preorderDataList m'.children
        = (preorderDataList m.children).filter activeOf ∧
      (∀ ds ∈ preorderDursList m'.children, ds = []) ∧
      m'.name = m.name ∧ m'.depth = m.depth ∧
      m'.overhead = m.overhead ∧ m'.durations = m.durations ∧
      m'.measuringCurrently = m.measuringCurrently := by
  cases hany : m.children.any (fun c => !c.measuringCurrently) with
  | true =>
    rw [resetMeasurement, if_pos (by rw [hany])] at h
    exact absurd h (by simp)
  | false =>
    rw [resetMeasurement, if_neg (by rw [hany]; simp)] at h
    injection h with h
    subst h
    cases m with
    | mk n d oh ds cs cns mc =>
      rw [ancClosed] at hanc
      exact ⟨preorderDataList_resetKeptChildren cs mc hanc,
        preorderDursList_resetKeptChildren cs, rfl, rfl, rfl, rfl, rfl⟩

/-- Witness for the amended C10 at `exC10` (active `"A"` with inactive
`"B"`). -/
theorem c10_amended_reset_changes_only_durations_and_children_witness :
    (ancClosed exC10 = true ∧ resetMeasurement exC10 = some exC10Reset) ∧
      (preorderDataList exC10Reset.children
          = (preorderDataList exC10.children).filter activeOf ∧
        (∀ ds ∈ preorderDursList exC10Reset.children, ds = []) ∧
        exC10Reset.name = exC10.name ∧ exC10Reset.depth = exC10.depth ∧
        exC10Reset.overhead = exC10.overhead ∧
        exC10Reset.durations = exC10.durations ∧
        exC10Reset.measuringCurrently = exC10.measuringCurrently) :=
  ⟨⟨by decide, rfl⟩,
    c10_amended_reset_changes_only_durations_and_children exC10 exC10Reset
      (by decide) rfl⟩

end Stperf
